import Mathlib

set_option maxRecDepth 10000

/-!
Verification of the diy-parca-agent repository's core logic.

Two components are embedded here, translated from the Go sources:

* the symbol resolver (`newSymbolizer` / `Addr2FuncName` from cmd/addr2func),
  which maps a sampled instruction address to a function name using a sorted
  ELF symbol table, handling position-independent executables; and
* the profile assembler (`fillProfile` / `mappingForAddr` / `tracedAddresses`
  from cmd/profiler2), which turns raw (pid, user-stack-id, kernel-stack-id)
  counts plus raw address stacks into a pprof-style profile with deduplicated
  locations and numbered mappings.

Machine integers (u64, u32, int32) are modelled as `Nat`/`Int`; the only
wrapping arithmetic in the sources is the u64 add/sub in the PIE address
translation, which is modelled with an explicit `% 2 ^ 64`.  Pointers to
profile entities are modelled as indices into the owning list.
-/

namespace Parca

/-- Modulus of unsigned 64-bit arithmetic. -/
def U64MOD : ℕ := 2 ^ 64

/-! ## Symbol resolver (cmd/addr2func) -/

/-- An ELF symbol-table entry; only the `Name` and `Value` fields of
`elf.Symbol` are used by the resolver. -/
structure Symbol where
  name : String
  value : ℕ
deriving DecidableEq, Repr

/-- Sentinel returned when a symbol is not found (`notfound := "?"`). -/
def notfound : String := "?"

/-- State of the resolver, mirroring the Go `symbolizer` struct:
the sorted symbol table, the file offset of the chosen loadable segment,
the virtual address where it was mapped, and the PIE flag. -/
structure Symbolizer where
  symbols : List Symbol
  segmentOffset : ℕ
  memoryStart : ℕ
  isPIE : Bool
deriving DecidableEq, Repr

/-- Search stage of `Addr2FuncName`.  The Go code runs
`sort.Search(len(s.symbols), func(i) { return s.symbols[i].Value >= addr })`,
which on the ascending-sorted table returns the least index whose value is
`≥ addr` (or the length when there is none) - computed here by
`List.findIdx`, whose semantics agree with `sort.Search` on the monotone
predicate induced by a sorted table.  Then: exact hit returns that entry's
name; otherwise the preceding entry's name is returned when it exists and
has a nonzero value; otherwise the sentinel. -/
def lookupName (symbols : List Symbol) (addr : ℕ) : String :=
  let i := symbols.findIdx (fun sym => decide (addr ≤ sym.value))
  match symbols[i]? with
  | none => notfound
  | some si =>
    if si.value = addr then si.name
    else
      match (if 1 ≤ i then symbols[i - 1]? else none) with
      | some sp => if 0 < sp.value then sp.name else notfound
      | none => notfound

/-- PIE address translation of `Addr2FuncName`: for a position-independent
binary the live address is rebased into the on-disk address space,
`segmentOffset + (addr - memoryStart)`, in u64 arithmetic.  (The function is
only applied on the branch where `memoryStart ≤ addr`, so the truncated
`Nat` subtraction agrees with the u64 subtraction.) -/
def translate (s : Symbolizer) (addr : ℕ) : ℕ :=
  if s.isPIE then (s.segmentOffset + (addr - s.memoryStart)) % U64MOD else addr

/-- Translation of the Go method `(*symbolizer).Addr2FuncName`:
address 0 resolves to the sentinel; on a PIE binary an address below
`memoryStart` resolves to the sentinel, otherwise the address is rebased;
finally the (possibly translated) address is searched in the symbol table. -/
def Addr2FuncName (s : Symbolizer) (addr : ℕ) : String :=
  if addr = 0 then notfound
  else if s.isPIE ∧ addr < s.memoryStart then notfound
  else lookupName s.symbols (translate s addr)

/-- An ELF program header; only the `Type`, `Off` and `Vaddr` fields of
`elf.ProgHeader` are used. -/
structure ProgHeader where
  type : ℕ
  off : ℕ
  vaddr : ℕ
deriving DecidableEq, Repr

/-- The `elf.PT_LOAD` program-header type. -/
def PT_LOAD : ℕ := 1

/-- The loop of `newSymbolizer` that scans `f.Progs`: it selects the first
program header whose file offset equals `fileOffset` (of any type) and
otherwise leaves the zero-valued header (whose type is `PT_NULL = 0`). -/
def findSegment : List ProgHeader → ℕ → ProgHeader
  | [], _ => ⟨0, 0, 0⟩
  | p :: rest, fileOffset => if p.off = fileOffset then p else findSegment rest fileOffset

/-- Error message produced by `newSymbolizer` when the selected header is not
loadable ("loadable segment not found at offset %x"). -/
def segNotFound : String := "loadable segment not found"

/-- Stable ascending sort of the symbol table by value, mirroring
`sort.SliceStable(symbols, func(i, j) { return Value_i < Value_j })`. -/
def sortSymbols (symbols : List Symbol) : List Symbol :=
  symbols.mergeSort (fun a b => decide (a.value ≤ b.value))

/-- Translation of `newSymbolizer` (reading of `f.Symbols()` is a
collaborator and its result is taken as the `symbols` argument): sort the
symbols, pick the first program header at `fileOffset`, fail unless it is
loadable, and set `isPIE` iff its virtual address equals its file offset. -/
def newSymbolizer (symbols : List Symbol) (progs : List ProgHeader)
    (fileOffset memoryStart : ℕ) : Except String Symbolizer :=
  let sorted := sortSymbols symbols
  let segment := findSegment progs fileOffset
  if segment.type = PT_LOAD then
    Except.ok { symbols := sorted, segmentOffset := segment.off,
                memoryStart := memoryStart, isPIE := decide (segment.vaddr = segment.off) }
  else Except.error segNotFound

/-! ## Profile assembler (cmd/profiler2) -/

/-- Maximum depth of each stack trace (`stackDepth` in main.go, i.e.
`MAX_STACK_DEPTH` in the BPF C program). -/
def stackDepth : ℕ := 127

/-- Outcome of one BPF per-key kernel lookup: the key is present with a
stored value (a sequence of u64 words), absent, or the lookup system call
itself fails. -/
inductive LookupOutcome where
  | found : List ℕ → LookupOutcome
  | notFound : LookupOutcome
  | ioError : LookupOutcome
deriving DecidableEq, Repr

/-- Point-in-time snapshot of the BPF `stack_traces` map (key type u32),
modelled as a total function from u32 key values to lookup outcomes. -/
structure StackTraceMap where
  entries : ℕ → LookupOutcome

/-- Translation of `(*ebpf.Map).LookupBytes(key)` on the stack-trace map for
an `int32` stack-id key: the key is marshalled by its byte representation,
i.e. reinterpreted as the u32 value `id % 2^32`.  Per the cilium/ebpf
contract, a missing key yields `(nil, nil)` - nil bytes and **no** error -
(`Except.ok none` here), a present key yields its bytes (`Except.ok (some
words)`), and only a system-call failure yields an error. -/
def lookupBytes (t : StackTraceMap) (id : ℤ) : Except Unit (Option (List ℕ)) :=
  match t.entries ((id % (2 ^ 32 : ℤ)).toNat) with
  | .found v => Except.ok (some v)
  | .notFound => Except.ok none
  | .ioError => Except.error ()

/-- Translation of `binary.Read(bytes.NewBuffer(stackBytes), LittleEndian,
stack[:])` at the u64-word granularity: decoding fills a fixed array of 127
words and fails when the buffer holds fewer (in particular when the bytes
are nil because the key was absent). -/
def decodeStack (b : Option (List ℕ)) : Option (List ℕ) :=
  match b with
  | none => none
  | some ws => if stackDepth ≤ ws.length then some (ws.take stackDepth) else none

/-- Reinterpretation of a u64 value as an int64, as in Go's `int64(seen)`. -/
def toInt64 (n : ℕ) : ℤ :=
  if n % U64MOD < 2 ^ 63 then ((n % U64MOD : ℕ) : ℤ) else ((n % U64MOD : ℕ) : ℤ) - U64MOD

/-- A `profile.Mapping` as consumed and produced by the assembler (`ID`,
`Start`, `Limit`, `Offset`, `File`). -/
structure Mapping where
  id : ℕ
  start : ℕ
  limit : ℕ
  offset : ℕ
  file : String
deriving DecidableEq, Repr

/-- A `profile.Location`: its id, its address, and its mapping - the Go
`*profile.Mapping` pointer is modelled as an index into the supplied mapping
list, `none` when the mapping is unknown (nil). -/
structure Location where
  id : ℕ
  address : ℕ
  mapping : Option ℕ
deriving DecidableEq, Repr

/-- A `profile.Sample`: the value vector (`[]int64{int64(seen)}`) and the
ordered location list (Go stores `*profile.Location` pointers; locations are
never mutated after creation, so they are stored here by value). -/
structure Sample where
  value : List ℤ
  locations : List Location
deriving DecidableEq, Repr

/-- The parts of a `profile.Profile` that `fillProfile` writes: the sample,
location and mapping lists.  (The metadata set by `newProfile` - timestamps,
period, sample type - is not touched by the assembly logic.) -/
structure Profile where
  samples : List Sample
  locations : List Location
  mappings : List Mapping
deriving DecidableEq, Repr

/-- The `stackCountKey` struct sent from the BPF program: a u32 pid and two
int32 stack ids (negative ids are `bpf_get_stackid` error codes). -/
structure StackCountKey where
  pid : ℕ
  userStackID : ℤ
  kernelStackID : ℤ
deriving DecidableEq, Repr

/-- The `locationIndex` struct: key of the per-pass dedup table mapping
{pid; addr} to an index in the profile's location slice. -/
structure locationIndex where
  pid : ℕ
  addr : ℕ
deriving DecidableEq, Repr

/-- Lookup in the dedup table `locationIndices`, modelled as an association
list (the Go map has unique keys, so the first match is the match). -/
def lookupIdx : List (locationIndex × ℕ) → locationIndex → Option ℕ
  | [], _ => none
  | (k, i) :: rest, q => if k = q then some i else lookupIdx rest q

/-- Translation of `mappingForAddr`: the first mapping (in list order) with
`Start <= addr && Limit >= addr`; the returned Go pointer is modelled as the
index of that mapping, `none` when no mapping contains the address. -/
def mappingForAddr : List Mapping → ℕ → Option ℕ
  | [], _ => none
  | m :: rest, addr =>
    if m.start ≤ addr ∧ addr ≤ m.limit then some 0
    else (mappingForAddr rest addr).map (· + 1)

/-- The per-sample location-collection loop of `fillProfile` (`for _, addr :=
range userStack`): zero addresses are skipped (`continue`); for a nonzero
address the dedup table is consulted, and on a miss a new `Location` is
appended to the profile's location list with id `index + 1` and the mapping
found by `mappingForAddr` (possibly unknown), and recorded in the table; the
location (old or new) is appended to the sample's location list.  Returns
the updated dedup table, the updated location list, and the sample's
location list. -/
def collectSampleLocations (mm : List Mapping) (pid : ℕ) :
    List (locationIndex × ℕ) → List Location → List ℕ →
    List (locationIndex × ℕ) × List Location × List Location
  | li, locs, [] => (li, locs, [])
  | li, locs, addr :: rest =>
    if addr = 0 then collectSampleLocations mm pid li locs rest
    else
      match lookupIdx li ⟨pid, addr⟩ with
      | some i =>
        let loc := locs.getD i ⟨0, 0, none⟩
        let r := collectSampleLocations mm pid li locs rest
        (r.1, r.2.1, loc :: r.2.2)
      | none =>
        let m := mappingForAddr mm addr
        let i := locs.length
        let loc : Location := ⟨i + 1, addr, m⟩
        let r := collectSampleLocations mm pid ((⟨pid, addr⟩, i) :: li) (locs ++ [loc]) rest
        (r.1, r.2.1, loc :: r.2.2)

/-- Intermediate state of one assembly pass: the dedup table and the
profile's accumulating location and sample lists. -/
structure AsmState where
  locationIndices : List (locationIndex × ℕ)
  locations : List Location
  samples : List Sample
deriving Repr

/-- The body of the `for it.Next(&key, &seen)` loop of `fillProfile` for one
raw sample key: a user-stack lookup error or decode failure skips the key
(`continue`); a kernel-stack lookup error also skips the key (`continue`);
a kernel-stack decode failure is only logged and the sample is still built;
finally a `Sample` with value `[]int64{int64(seen)}` and the collected
user-space locations is appended. -/
def processKey (stackTraces : StackTraceMap) (mm : List Mapping) (pid : ℕ)
    (st : AsmState) (key : StackCountKey) (seen : ℕ) : AsmState :=
  match lookupBytes stackTraces key.userStackID with
  | .error _ => st
  | .ok ub =>
    match decodeStack ub with
    | none => st
    | some userStack =>
      match lookupBytes stackTraces key.kernelStackID with
      | .error _ => st
      | .ok _ =>
        let r := collectSampleLocations mm pid st.locationIndices st.locations userStack
        { locationIndices := r.1
          locations := r.2.1
          samples := st.samples ++ [{ value := [toInt64 seen], locations := r.2.2 }] }

/-- The finalization step of `fillProfile`: `for i, m := range mm { m.ID =
uint64(i + 1) }` followed by `prof.Mapping = mm` - ids 1..N are assigned in
the original list order. -/
def finalizeMappings (mm : List Mapping) : List Mapping :=
  mm.enum.map (fun p => { p.2 with id := p.1 + 1 })

/-- Translation of `fillProfile`: iterate over the counts-map snapshot
(given as the iteration sequence of key/count pairs), process each key, then
assign mapping ids and attach the mapping list. -/
def fillProfile (stackTraces : StackTraceMap) (counts : List (StackCountKey × ℕ))
    (pid : ℕ) (mm : List Mapping) : Profile :=
  let st := counts.foldl (fun st kv => processKey stackTraces mm pid st kv.1 kv.2) ⟨[], [], []⟩
  { samples := st.samples
    locations := st.locations
    mappings := finalizeMappings mm }

/-- Translation of `tracedAddresses` (used for printing): the prefix of the
fixed-length stack before the first zero address, and nil when no entry is
zero (the Go loop then runs to the end and returns nil). -/
def tracedAddresses (stack : List ℕ) : List ℕ :=
  if stack.contains 0 then stack.takeWhile (fun a => decide (a ≠ 0)) else []

/-! ## Invariants of the per-pass dedup state -/

/-- Faithfulness of the dedup table: every index it stores is a valid index
into the location list, pointing at a location whose address is the key's
address. -/
def IndexFaithful (li : List (locationIndex × ℕ)) (locs : List Location) : Prop :=
  ∀ k i, lookupIdx li k = some i → ∃ h : i < locs.length, locs[i].address = k.addr

/-- Completeness of the dedup table for the pass's pid: every stored
location can be found in the table under its own address. -/
def IndexComplete (pid : ℕ) (li : List (locationIndex × ℕ)) (locs : List Location) : Prop :=
  ∀ i (h : i < locs.length), lookupIdx li ⟨pid, locs[i].address⟩ = some i

/-- Every stored location's id is its index in the location list plus one. -/
def IdsSequential (locs : List Location) : Prop :=
  ∀ i (h : i < locs.length), locs[i].id = i + 1

theorem lookupIdx_cons (e : locationIndex × ℕ) (li : List (locationIndex × ℕ))
    (q : locationIndex) : lookupIdx (e :: li) q = if e.1 = q then some e.2 else lookupIdx li q :=
  rfl

/-- The location-collection loop preserves the dedup invariants, only
appends to the location list, draws the sample's locations from the final
location list, and produces exactly the nonzero addresses, in order. -/
theorem collect_master (mm : List Mapping) (pid : ℕ) (addrs : List ℕ) :
    ∀ li locs, IndexFaithful li locs → IndexComplete pid li locs → IdsSequential locs →
      IndexFaithful (collectSampleLocations mm pid li locs addrs).1
          (collectSampleLocations mm pid li locs addrs).2.1 ∧
      IndexComplete pid (collectSampleLocations mm pid li locs addrs).1
          (collectSampleLocations mm pid li locs addrs).2.1 ∧
      IdsSequential (collectSampleLocations mm pid li locs addrs).2.1 ∧
      (∃ ext, (collectSampleLocations mm pid li locs addrs).2.1 = locs ++ ext) ∧
      (∀ l ∈ (collectSampleLocations mm pid li locs addrs).2.2,
          l ∈ (collectSampleLocations mm pid li locs addrs).2.1) ∧
      (collectSampleLocations mm pid li locs addrs).2.2.map Location.address
          = addrs.filter (fun a => decide (a ≠ 0)) := by
  induction addrs with
  | nil =>
    intro li locs hIF hIC hIds
    exact ⟨hIF, hIC, hIds, ⟨[], by simp [collectSampleLocations]⟩,
      by simp [collectSampleLocations], by simp [collectSampleLocations]⟩
  | cons addr rest ih =>
    intro li locs hIF hIC hIds
    by_cases h0 : addr = 0
    · subst h0
      simpa [collectSampleLocations] using ih li locs hIF hIC hIds
    · cases hfind : lookupIdx li ⟨pid, addr⟩ with
      | some i =>
        obtain ⟨hi, haddr⟩ := hIF ⟨pid, addr⟩ i hfind
        have hget : locs.getD i ⟨0, 0, none⟩ = locs[i] := by
          simp [List.getD_eq_getElem?_getD, List.getElem?_eq_getElem hi]
        obtain ⟨q1, q2, q3, ⟨ext, hext⟩, q5, q6⟩ := ih li locs hIF hIC hIds
        simp only [collectSampleLocations, if_neg h0, hfind]
        refine ⟨q1, q2, q3, ⟨ext, hext⟩, ?_, ?_⟩
        · intro l hl
          rcases List.mem_cons.1 hl with rfl | hl
          · rw [hget, hext]
            exact List.mem_append_left ext (List.getElem_mem hi)
          · exact q5 l hl
        · simp only [List.map_cons, q6, hget, haddr]
          rw [List.filter_cons_of_pos (by simpa using h0)]
      | none =>
        set loc : Location := ⟨locs.length + 1, addr, mappingForAddr mm addr⟩ with hloc
        have hIF2 : IndexFaithful ((⟨pid, addr⟩, locs.length) :: li) (locs ++ [loc]) := by
          intro k j hkj
          rw [lookupIdx_cons] at hkj
          by_cases hk : (⟨pid, addr⟩ : locationIndex) = k
          · rw [if_pos hk] at hkj
            obtain rfl : locs.length = j := Option.some.inj hkj
            refine ⟨by simp, ?_⟩
            have : (locs ++ [loc])[locs.length] = loc := by simp
            rw [this, ← hk]
          · rw [if_neg hk] at hkj
            obtain ⟨h, ha⟩ := hIF k j hkj
            refine ⟨by simp; omega, ?_⟩
            rw [List.getElem_append_left h]
            exact ha
        have hIC2 : IndexComplete pid ((⟨pid, addr⟩, locs.length) :: li) (locs ++ [loc]) := by
          intro j h
          rcases Nat.lt_or_ge j locs.length with hj | hj
          · have hgl : (locs ++ [loc])[j] = locs[j] := List.getElem_append_left hj
            have hne : locs[j].address ≠ addr := by
              intro he
              have hx := hIC j hj
              rw [he, hfind] at hx
              cases hx
            rw [hgl, lookupIdx_cons, if_neg (by simpa using fun h => (hne h.symm).elim)]
            exact hIC j hj
          · have hj' : j = locs.length := by
              have := List.length_append locs [loc] ▸ h
              simp at this
              omega
            subst hj'
            have : (locs ++ [loc])[locs.length] = loc := by simp
            rw [this, lookupIdx_cons, if_pos rfl]
        have hIds2 : IdsSequential (locs ++ [loc]) := by
          intro j h
          rcases Nat.lt_or_ge j locs.length with hj | hj
          · rw [List.getElem_append_left hj]
            exact hIds j hj
          · have hj' : j = locs.length := by
              have := List.length_append locs [loc] ▸ h
              simp at this
              omega
            subst hj'
            have : (locs ++ [loc])[locs.length] = loc := by simp
            rw [this]
        obtain ⟨q1, q2, q3, ⟨ext, hext⟩, q5, q6⟩ :=
          ih ((⟨pid, addr⟩, locs.length) :: li) (locs ++ [loc]) hIF2 hIC2 hIds2
        simp only [collectSampleLocations, if_neg h0, hfind]
        refine ⟨q1, q2, q3, ⟨loc :: ext, by rw [hext, List.append_assoc]; rfl⟩, ?_, ?_⟩
        · intro l hl
          rcases List.mem_cons.1 hl with rfl | hl
          · rw [hext]
            exact List.mem_append_left ext (by simp)
          · exact q5 l hl
        · simp only [List.map_cons, q6]
          rw [List.filter_cons_of_pos (by simpa using h0)]

theorem IndexFaithful_empty : IndexFaithful [] [] := by
  intro k i h
  simp [lookupIdx] at h

theorem IndexComplete_empty (pid : ℕ) : IndexComplete pid [] [] := by
  intro i h
  simp at h

theorem IdsSequential_empty : IdsSequential [] := by
  intro i h
  simp at h

/-- Invariant of the whole per-pass state: the dedup invariants plus the
fact that every location referenced from a sample lives in the profile's
location list. -/
def StateInv (pid : ℕ) (st : AsmState) : Prop :=
  IndexFaithful st.locationIndices st.locations ∧
  IndexComplete pid st.locationIndices st.locations ∧
  IdsSequential st.locations ∧
  ∀ s ∈ st.samples, ∀ l ∈ s.locations, l ∈ st.locations

theorem StateInv_empty (pid : ℕ) : StateInv pid ⟨[], [], []⟩ :=
  ⟨IndexFaithful_empty, IndexComplete_empty pid, IdsSequential_empty, by simp⟩

theorem processKey_inv (t : StackTraceMap) (mm : List Mapping) (pid : ℕ) (st : AsmState)
    (key : StackCountKey) (seen : ℕ) (hinv : StateInv pid st) :
    StateInv pid (processKey t mm pid st key seen) := by
  obtain ⟨hIF, hIC, hIds, hS⟩ := hinv
  cases hu : lookupBytes t key.userStackID with
  | error e => simp only [processKey, hu]; exact ⟨hIF, hIC, hIds, hS⟩
  | ok ub =>
    cases hud : decodeStack ub with
    | none => simp only [processKey, hu, hud]; exact ⟨hIF, hIC, hIds, hS⟩
    | some userStack =>
      cases hk : lookupBytes t key.kernelStackID with
      | error e => simp only [processKey, hu, hud, hk]; exact ⟨hIF, hIC, hIds, hS⟩
      | ok kb =>
        simp only [processKey, hu, hud, hk]
        obtain ⟨q1, q2, q3, ⟨ext, hext⟩, q5, q6⟩ :=
          collect_master mm pid userStack st.locationIndices st.locations hIF hIC hIds
        refine ⟨q1, q2, q3, ?_⟩
        intro s hs l hl
        rcases List.mem_append.1 hs with hs | hs
        · rw [hext]
          exact List.mem_append_left ext (hS s hs l hl)
        · rw [List.mem_singleton.1 hs] at hl
          exact q5 l hl

theorem foldl_inv (t : StackTraceMap) (mm : List Mapping) (pid : ℕ)
    (counts : List (StackCountKey × ℕ)) :
    ∀ st : AsmState, StateInv pid st →
      StateInv pid (counts.foldl (fun st kv => processKey t mm pid st kv.1 kv.2) st) := by
  induction counts with
  | nil => intro st h; simpa using h
  | cons kv rest ih =>
    intro st h
    exact ih _ (processKey_inv t mm pid st kv.1 kv.2 h)

theorem inv_addr_inj (pid : ℕ) (li : List (locationIndex × ℕ)) (locs : List Location)
    (hIC : IndexComplete pid li locs) :
    ∀ i j (hi : i < locs.length) (hj : j < locs.length),
      locs[i].address = locs[j].address → i = j := by
  intro i j hi hj h
  have h1 := hIC i hi
  have h2 := hIC j hj
  rw [← h, h1] at h2
  exact Option.some.inj h2

theorem mappingForAddr_some (mm : List Mapping) (addr : ℕ) :
    ∀ i, mappingForAddr mm addr = some i →
      ∃ mi, mm[i]? = some mi ∧ (mi.start ≤ addr ∧ addr ≤ mi.limit) ∧
        ∀ j mj, j < i → mm[j]? = some mj → ¬(mj.start ≤ addr ∧ addr ≤ mj.limit) := by
  induction mm with
  | nil => intro i h; simp [mappingForAddr] at h
  | cons m rest ih =>
    intro i h
    simp only [mappingForAddr] at h
    by_cases hc : m.start ≤ addr ∧ addr ≤ m.limit
    · rw [if_pos hc] at h
      obtain rfl : (0 : ℕ) = i := Option.some.inj h
      exact ⟨m, by simp, hc, fun j mj hj => by omega⟩
    · rw [if_neg hc] at h
      cases hr : mappingForAddr rest addr with
      | none => rw [hr] at h; simp at h
      | some k =>
        rw [hr] at h
        simp only [Option.map_some'] at h
        obtain rfl : k + 1 = i := Option.some.inj h
        obtain ⟨mi, hmi, hcon, hall⟩ := ih k hr
        refine ⟨mi, by simpa using hmi, hcon, ?_⟩
        intro j mj hj hmj
        cases j with
        | zero =>
          obtain rfl : m = mj := Option.some.inj (by simpa using hmj)
          exact hc
        | succ j' =>
          exact hall j' mj (by omega) (by simpa using hmj)

theorem mappingForAddr_none (mm : List Mapping) (addr : ℕ)
    (h : ∀ m ∈ mm, ¬(m.start ≤ addr ∧ addr ≤ m.limit)) :
    mappingForAddr mm addr = none := by
  induction mm with
  | nil => rfl
  | cons m rest ih =>
    simp only [mappingForAddr, if_neg (h m (by simp))]
    rw [ih (fun m' hm' => h m' (List.mem_cons_of_mem m hm'))]
    rfl

theorem collect_contains_addr (mm : List Mapping) (pid : ℕ) (addrs : List ℕ) :
    ∀ li locs addr, addr ∈ addrs → addr ≠ 0 →
      lookupIdx li ⟨pid, addr⟩ = none → mappingForAddr mm addr = none →
      ∃ l ∈ (collectSampleLocations mm pid li locs addrs).2.2,
        l.address = addr ∧ l.mapping = none := by
  induction addrs with
  | nil => intro li locs addr h; simp at h
  | cons a rest ih =>
    intro li locs addr hmem h0 hfresh hnomap
    by_cases ha0 : a = 0
    · subst ha0
      have hmem' : addr ∈ rest := by
        rcases List.mem_cons.1 hmem with rfl | hm
        · exact absurd rfl h0
        · exact hm
      simp only [collectSampleLocations, if_pos rfl]
      exact ih li locs addr hmem' h0 hfresh hnomap
    · by_cases haddr : a = addr
      · subst haddr
        simp only [collectSampleLocations, if_neg ha0, hfresh]
        refine ⟨⟨locs.length + 1, a, mappingForAddr mm a⟩, by simp, rfl, hnomap⟩
      · have hmem' : addr ∈ rest := by
          rcases List.mem_cons.1 hmem with rfl | hm
          · exact absurd rfl haddr
          · exact hm
        cases hfind : lookupIdx li ⟨pid, a⟩ with
        | some i =>
          simp only [collectSampleLocations, if_neg ha0, hfind]
          obtain ⟨l, hl, hp⟩ := ih li locs addr hmem' h0 hfresh hnomap
          exact ⟨l, List.mem_cons_of_mem _ hl, hp⟩
        | none =>
          simp only [collectSampleLocations, if_neg ha0, hfind]
          have hfresh2 : lookupIdx ((⟨pid, a⟩, locs.length) :: li) ⟨pid, addr⟩ = none := by
            rw [lookupIdx_cons, if_neg (by simp [haddr])]
            exact hfresh
          obtain ⟨l, hl, hp⟩ := ih _ _ addr hmem' h0 hfresh2 hnomap
          exact ⟨l, List.mem_cons_of_mem _ hl, hp⟩

/-! ## Facts about the symbol search -/

/-- On a sorted table containing an exact match, the lower-bound search
lands on an entry whose value is exactly the target. -/
theorem findIdx_exact (symbols : List Symbol) (t : ℕ)
    (hs : List.Pairwise (fun x y => x.value ≤ y.value) symbols)
    (hmem : ∃ sym ∈ symbols, sym.value = t) :
    ∃ s ∈ symbols,
      symbols[symbols.findIdx (fun sym => decide (t ≤ sym.value))]? = some s ∧
      s.value = t := by
  induction symbols with
  | nil => simp at hmem
  | cons x xs ih =>
    rw [List.findIdx_cons]
    by_cases hx : t ≤ x.value
    · have hp : decide (t ≤ x.value) = true := decide_eq_true hx
      rw [hp, cond_true]
      obtain ⟨sym, hsym, hval⟩ := hmem
      rcases List.mem_cons.1 hsym with rfl | hsym'
      · exact ⟨sym, by simp, by simp, hval⟩
      · have hle : x.value ≤ sym.value := (List.pairwise_cons.1 hs).1 sym hsym'
        have hxt : x.value = t := le_antisymm (hval ▸ hle) hx
        exact ⟨x, by simp, by simp, hxt⟩
    · have hp : decide (t ≤ x.value) = false := decide_eq_false hx
      rw [hp, cond_false]
      obtain ⟨sym, hsym, hval⟩ := hmem
      rcases List.mem_cons.1 hsym with rfl | hsym'
      · exact absurd hval (by omega)
      · obtain ⟨s, hsmem, hgs, hsv⟩ := ih (List.pairwise_cons.1 hs).2 ⟨sym, hsym', hval⟩
        exact ⟨s, List.mem_cons_of_mem x hsmem, by simpa using hgs, hsv⟩

/-- The search returns the unique boundary index: all entries before `n`
fail the predicate and entry `n` satisfies it. -/
theorem findIdx_eq_of_bounds {α : Type} (l : List α) (p : α → Bool) (n : ℕ) (hn : n < l.length)
    (htrue : p l[n] = true) (hfalse : ∀ j (hj : j < n), p l[j] = false) :
    l.findIdx p = n := by
  induction l generalizing n with
  | nil => simp at hn
  | cons x xs ih =>
    rw [List.findIdx_cons]
    cases n with
    | zero =>
      rw [List.getElem_cons_zero] at htrue
      rw [htrue, cond_true]
    | succ n' =>
      have h0 : p x = false := by
        have := hfalse 0 (Nat.succ_pos n')
        simpa using this
      rw [h0, cond_false]
      have heq : xs.findIdx p = n' :=
        ih n' (by simpa using hn) (by simpa using htrue)
          (fun j hj => by
            have := hfalse (j + 1) (by omega)
            simpa using this)
      omega

/-- Resolution of an address strictly between two adjacent entries of a
sorted table: the result is the lower entry's name when its value is
nonzero, and the sentinel when its value is zero. -/
theorem lookupName_between (symbols : List Symbol) (t i : ℕ) (S T : Symbol)
    (hs : List.Pairwise (fun x y => x.value ≤ y.value) symbols)
    (hSi : symbols[i]? = some S) (hTi : symbols[i + 1]? = some T)
    (hlow : S.value < t) (hhigh : t < T.value) :
    lookupName symbols t = if 0 < S.value then S.name else notfound := by
  have hTlen : i + 1 < symbols.length := by
    rcases List.getElem?_eq_some.1 hTi with ⟨h, _⟩
    exact h
  have hSget : symbols[i] = S := by
    rcases List.getElem?_eq_some.1 hSi with ⟨h, he⟩
    exact he
  have hTget : symbols[i + 1] = T := by
    rcases List.getElem?_eq_some.1 hTi with ⟨h, he⟩
    exact he
  have hmono := List.pairwise_iff_getElem.1 hs
  have hidx : symbols.findIdx (fun sym => decide (t ≤ sym.value)) = i + 1 := by
    apply findIdx_eq_of_bounds symbols _ (i + 1) hTlen
    · rw [hTget]
      exact decide_eq_true (le_of_lt hhigh)
    · intro j hj
      apply decide_eq_false
      have hjlen : j < symbols.length := by omega
      have hji : symbols[j].value ≤ S.value := by
        rcases Nat.lt_or_ge j i with hji | hji
        · have := hmono j i hjlen (by omega) hji
          rw [hSget] at this
          exact this
        · have : j = i := by omega
          subst this
          rw [hSget]
      omega
  have hTne : ¬(T.value = t) := by omega
  simp only [lookupName, hidx, List.getElem?_eq_getElem hTlen, hTget]
  rw [if_neg hTne, if_pos (by omega : 1 ≤ i + 1), Nat.add_sub_cancel, hSi]

/-- When every entry's value is below the target, the search runs past the
table end and resolution returns the sentinel. -/
theorem lookupName_past_end (symbols : List Symbol) (t : ℕ)
    (h : ∀ sym ∈ symbols, sym.value < t) :
    lookupName symbols t = notfound := by
  have hidx : symbols.findIdx (fun sym => decide (t ≤ sym.value)) = symbols.length :=
    List.findIdx_eq_length_of_false (fun x hx => decide_eq_false (by
      have := h x hx
      omega))
  simp only [lookupName, hidx]
  rw [List.getElem?_eq_none (le_refl _)]

/-- The first program header at the given offset determines the selected
segment. -/
theorem findSegment_of_first (progs : List ProgHeader) (fo : ℕ) :
    ∀ (i : ℕ) (P : ProgHeader), progs[i]? = some P → P.off = fo →
      (∀ (j : ℕ) (Q : ProgHeader), j < i → progs[j]? = some Q → Q.off ≠ fo) →
      findSegment progs fo = P := by
  induction progs with
  | nil => intro i P h; simp at h
  | cons p rest ih =>
    intro i P hP hoff hprev
    cases i with
    | zero =>
      obtain rfl : p = P := Option.some.inj (by simpa using hP)
      simp [findSegment, hoff]
    | succ i' =>
      have hpne : p.off ≠ fo := hprev 0 p (Nat.succ_pos i') (by simp)
      simp only [findSegment, if_neg hpne]
      exact ih i' P (by simpa using hP) hoff
        (fun j Q hj hQ => hprev (j + 1) Q (by omega) (by simpa using hQ))

/-- When no program header sits at the given offset, the zero-valued header
(of type `PT_NULL = 0`) is left in place. -/
theorem findSegment_of_none (progs : List ProgHeader) (fo : ℕ)
    (h : ∀ p ∈ progs, p.off ≠ fo) : findSegment progs fo = ⟨0, 0, 0⟩ := by
  induction progs with
  | nil => rfl
  | cons p rest ih =>
    simp only [findSegment, if_neg (h p (by simp))]
    exact ih (fun q hq => h q (List.mem_cons_of_mem p hq))

/-! ## Concrete instances used by witnesses and counterexamples -/

/-- A decoded user stack: frames 10, 11 then zero padding (127 entries). -/
def demoUser : List ℕ := [10, 11] ++ List.replicate 125 0

/-- A second decoded stack sharing the frame address 10 (127 entries). -/
def demoUser2 : List ℕ := [10] ++ List.replicate 126 0

/-- A stack-trace table snapshot holding `demoUser` at id 3 and `demoUser2`
at id 4, with every other key absent. -/
def demoTraces : StackTraceMap :=
  ⟨fun k =>
    if k = 3 then LookupOutcome.found demoUser
    else if k = 4 then LookupOutcome.found demoUser2
    else LookupOutcome.notFound⟩

/-- A raw stack with a nonzero entry after the first zero (127 entries). -/
def gapStack : List ℕ := [1, 0, 2] ++ List.replicate 124 0

/-- A table snapshot holding `gapStack` at id 7. -/
def gapTraces : StackTraceMap :=
  ⟨fun k => if k = 7 then LookupOutcome.found gapStack else LookupOutcome.notFound⟩

/-- One process mapping covering addresses 4096 to 8192 (limit inclusive per
`mappingForAddr`). -/
def demoMapping : Mapping := ⟨0, 4096, 8192, 0, "/bin/demo"⟩

/-! ## Claims -/

/-- C1: during profile assembly, for every raw sample key whose user-space
stack was successfully looked up and decoded, a kernel-space stack lookup
failure (key not present, which the map API reports as nil bytes with no
error) or decode failure does not abort that sample - a Sample with the
user-space frames (the stack's nonzero addresses, in order) and the
occurrence count is still appended to the profile.  `decodeStack kb = none`
covers exactly the kernel-side failures: the absent key (`kb = none`) and
short bytes. -/
theorem claim_C1 (t : StackTraceMap) (mm : List Mapping) (pid : ℕ) (st : AsmState)
    (key : StackCountKey) (seen : ℕ) (ub kb : Option (List ℕ)) (userStack : List ℕ)
    (hIF : IndexFaithful st.locationIndices st.locations)
    (hIC : IndexComplete pid st.locationIndices st.locations)
    (hIds : IdsSequential st.locations)
    (hu : lookupBytes t key.userStackID = Except.ok ub)
    (hud : decodeStack ub = some userStack)
    (hk : lookupBytes t key.kernelStackID = Except.ok kb)
    (_hkd : decodeStack kb = none) :
    ∃ s, (processKey t mm pid st key seen).samples = st.samples ++ [s] ∧
      s.value = [toInt64 seen] ∧
      s.locations.map Location.address = userStack.filter (fun a => decide (a ≠ 0)) := by
  have q := (collect_master mm pid userStack st.locationIndices st.locations hIF hIC hIds).2.2.2.2.2
  refine ⟨⟨[toInt64 seen],
      (collectSampleLocations mm pid st.locationIndices st.locations userStack).2.2⟩, ?_, rfl, q⟩
  simp only [processKey, hu, hud, hk]

theorem claim_C1_witness :
    ∃ s, (processKey demoTraces [] 1 ⟨[], [], []⟩ ⟨1, 3, -14⟩ 2).samples = [] ++ [s] ∧
      s.value = [toInt64 2] ∧
      s.locations.map Location.address = demoUser.filter (fun a => decide (a ≠ 0)) :=
  claim_C1 demoTraces [] 1 ⟨[], [], []⟩ ⟨1, 3, -14⟩ 2 (some demoUser) none demoUser
    IndexFaithful_empty (IndexComplete_empty 1) IdsSequential_empty
    rfl rfl rfl rfl

/-- C2 (counterexample): the claim says the sample's location list is built
from exactly the addresses preceding the first zero entry.  On the decoded
stack `gapStack = [1, 0, 2, 0, ...]` the code produces locations for the
addresses `[1, 2]` - it skips each zero with `continue` rather than
truncating - while the prefix before the first zero is `[1]`. -/
theorem claim_C2_counterexample :
    (fillProfile gapTraces [(⟨100, 7, -14⟩, 3)] 100 []).samples.map
        (fun s => s.locations.map Location.address) = [[1, 2]] ∧
    gapStack.takeWhile (fun a => decide (a ≠ 0)) = [1] ∧
    ([1, 2] : List ℕ) ≠ [1] := by decide

/-- C2 (amended): for every decoded raw user-space stack, the Sample's
location list is built from exactly the **nonzero** addresses of the stack,
in order - zero entries are skipped wherever they occur, so entries after
the first zero are kept when nonzero.  (When the stack is zero-padded after
the first zero, as the kernel produces, this coincides with the prefix
before the first zero.) -/
theorem claim_C2_amended (mm : List Mapping) (pid : ℕ) (addrs : List ℕ)
    (li : List (locationIndex × ℕ)) (locs : List Location)
    (hIF : IndexFaithful li locs) (hIC : IndexComplete pid li locs)
    (hIds : IdsSequential locs) :
    (collectSampleLocations mm pid li locs addrs).2.2.map Location.address
      = addrs.filter (fun a => decide (a ≠ 0)) :=
  (collect_master mm pid addrs li locs hIF hIC hIds).2.2.2.2.2

theorem claim_C2_amended_witness :
    (collectSampleLocations [] 9 [] [] [5, 0, 6]).2.2.map Location.address
      = [5, 0, 6].filter (fun a => decide (a ≠ 0)) :=
  claim_C2_amended [] 9 [5, 0, 6] [] []
    IndexFaithful_empty (IndexComplete_empty 9) IdsSequential_empty

/-- C3: within one assembly pass, any two locations referenced from the
produced Samples that share an address (the pass has a single pid, so a
shared address is a shared (pid, address) pair) are the same Location with
the same identifier; and the profile's location list holds at most one
Location per distinct address. -/
theorem claim_C3 (t : StackTraceMap) (counts : List (StackCountKey × ℕ)) (pid : ℕ)
    (mm : List Mapping) :
    (∀ s1 ∈ (fillProfile t counts pid mm).samples,
     ∀ s2 ∈ (fillProfile t counts pid mm).samples,
     ∀ l1 ∈ s1.locations, ∀ l2 ∈ s2.locations,
       l1.address = l2.address → l1 = l2 ∧ l1.id = l2.id) ∧
    ((fillProfile t counts pid mm).locations.map Location.address).Nodup := by
  obtain ⟨hIF, hIC, hIds, hS⟩ := foldl_inv t mm pid counts ⟨[], [], []⟩ (StateInv_empty pid)
  constructor
  · intro s1 hs1 s2 hs2 l1 hl1 l2 hl2 haddr
    have h1 : l1 ∈ (counts.foldl (fun st kv => processKey t mm pid st kv.1 kv.2)
        (⟨[], [], []⟩ : AsmState)).locations := hS s1 hs1 l1 hl1
    have h2 : l2 ∈ (counts.foldl (fun st kv => processKey t mm pid st kv.1 kv.2)
        (⟨[], [], []⟩ : AsmState)).locations := hS s2 hs2 l2 hl2
    obtain ⟨i, hi, rfl⟩ := List.getElem_of_mem h1
    obtain ⟨j, hj, rfl⟩ := List.getElem_of_mem h2
    obtain rfl : i = j := inv_addr_inj pid _ _ hIC i j hi hj haddr
    exact ⟨rfl, rfl⟩
  · show ((counts.foldl (fun st kv => processKey t mm pid st kv.1 kv.2)
        (⟨[], [], []⟩ : AsmState)).locations.map Location.address).Nodup
    rw [List.nodup_iff_getElem?_ne_getElem?]
    intro i j hij hjl hcon
    have hj : j < (counts.foldl (fun st kv => processKey t mm pid st kv.1 kv.2)
        (⟨[], [], []⟩ : AsmState)).locations.length := by simpa using hjl
    have hi : i < (counts.foldl (fun st kv => processKey t mm pid st kv.1 kv.2)
        (⟨[], [], []⟩ : AsmState)).locations.length := by omega
    rw [List.getElem?_map, List.getElem?_map, List.getElem?_eq_getElem hi,
        List.getElem?_eq_getElem hj] at hcon
    simp only [Option.map_some', Option.some_inj] at hcon
    have := inv_addr_inj pid _ _ hIC i j hi hj hcon
    omega

theorem claim_C3_witness :
    ((fillProfile demoTraces [(⟨1, 3, -14⟩, 1), (⟨1, 4, -14⟩, 2)] 1 []).locations.map
        Location.address).Nodup ∧
    ∃ s1 ∈ (fillProfile demoTraces [(⟨1, 3, -14⟩, 1), (⟨1, 4, -14⟩, 2)] 1 []).samples,
    ∃ s2 ∈ (fillProfile demoTraces [(⟨1, 3, -14⟩, 1), (⟨1, 4, -14⟩, 2)] 1 []).samples,
    ∃ l1 ∈ s1.locations, ∃ l2 ∈ s2.locations,
      l1.address = l2.address ∧ l1 = l2 ∧ l1.id = l2.id :=
  ⟨(claim_C3 demoTraces [(⟨1, 3, -14⟩, 1), (⟨1, 4, -14⟩, 2)] 1 []).2,
   ⟨⟨[1], [⟨1, 10, none⟩, ⟨2, 11, none⟩]⟩, by decide,
    ⟨[2], [⟨1, 10, none⟩]⟩, by decide,
    ⟨1, 10, none⟩, by decide, ⟨1, 10, none⟩, by decide, rfl,
    (claim_C3 demoTraces [(⟨1, 3, -14⟩, 1), (⟨1, 4, -14⟩, 2)] 1 []).1
      ⟨[1], [⟨1, 10, none⟩, ⟨2, 11, none⟩]⟩ (by decide)
      ⟨[2], [⟨1, 10, none⟩]⟩ (by decide)
      ⟨1, 10, none⟩ (by decide) ⟨1, 10, none⟩ (by decide) rfl⟩⟩

/-- C4: after assembly finalization, the profile's Mapping list is the
supplied list in its original order and the i-th mapping's id is `i + 1`,
so ids are exactly `1..N` with no gaps or reordering. -/
theorem claim_C4 (t : StackTraceMap) (counts : List (StackCountKey × ℕ)) (pid : ℕ)
    (mm : List Mapping) :
    (fillProfile t counts pid mm).mappings.length = mm.length ∧
    ∀ i : ℕ, (fillProfile t counts pid mm).mappings[i]? =
      (mm[i]?).map (fun m => { m with id := i + 1 }) := by
  constructor
  · simp [fillProfile, finalizeMappings]
  · intro i
    show (finalizeMappings mm)[i]? = (mm[i]?).map (fun m => { m with id := i + 1 })
    simp only [finalizeMappings, List.enum, List.getElem?_map, List.getElem?_enumFrom]
    cases mm[i]? <;> simp

/-- C5: for every raw sample key whose user-space stack id is negative (an
in-range int32 such as -14), assembly emits zero Samples for that key and
leaves the state untouched, because the id reinterpreted as a u32 exceeds
every key the BPF stack-trace map can hold (ids allocated by
`bpf_get_stackid` are below `MAX_STACK_ADDRESSES = 1024`), so the lookup
misses and the nil bytes fail to decode. -/
theorem claim_C5 (t : StackTraceMap) (mm : List Mapping) (pid : ℕ) (st : AsmState)
    (key : StackCountKey) (seen : ℕ)
    (hwf : ∀ k, 1024 ≤ k → t.entries k = LookupOutcome.notFound)
    (hneg : key.userStackID < 0) (hrange : -(2 ^ 31 : ℤ) ≤ key.userStackID) :
    processKey t mm pid st key seen = st := by
  have e2 : ((2 : ℤ) ^ 31) = 2147483648 := by norm_num
  rw [e2] at hrange
  have hnf : t.entries ((key.userStackID % (4294967296 : ℤ)).toNat) = LookupOutcome.notFound := by
    apply hwf
    omega
  simp [processKey, lookupBytes, hnf, decodeStack]

theorem claim_C5_witness :
    processKey demoTraces [] 1 ⟨[], [], []⟩ ⟨1, -14, 5⟩ 2 = ⟨[], [], []⟩ :=
  claim_C5 demoTraces [] 1 ⟨[], [], []⟩ ⟨1, -14, 5⟩ 2
    (fun k hk => by
      have h3 : k ≠ 3 := by omega
      have h4 : k ≠ 4 := by omega
      simp [demoTraces, h3, h4])
    (by decide) (by decide)

/-- C10: mapping containment treats the limit as inclusive - the mapping
chosen for a new Location is the first mapping in list order with
`start ≤ addr` and `addr ≤ limit` (so an address equal to the limit is
attributed to that mapping); when no mapping qualifies the result is none,
and the Location is still created with an unknown (none) mapping and still
appears in its Sample's location list. -/
theorem claim_C10 (mm : List Mapping) (addr : ℕ) :
    (∀ i, mappingForAddr mm addr = some i →
      ∃ mi, mm[i]? = some mi ∧ (mi.start ≤ addr ∧ addr ≤ mi.limit) ∧
        ∀ j mj, j < i → mm[j]? = some mj → ¬(mj.start ≤ addr ∧ addr ≤ mj.limit)) ∧
    ((∀ m ∈ mm, ¬(m.start ≤ addr ∧ addr ≤ m.limit)) → mappingForAddr mm addr = none) ∧
    (∀ (pid : ℕ) (li : List (locationIndex × ℕ)) (locs : List Location) (addrs : List ℕ),
      addr ∈ addrs → addr ≠ 0 →
      lookupIdx li ⟨pid, addr⟩ = none → mappingForAddr mm addr = none →
      ∃ l ∈ (collectSampleLocations mm pid li locs addrs).2.2,
        l.address = addr ∧ l.mapping = none) :=
  ⟨mappingForAddr_some mm addr, mappingForAddr_none mm addr,
   fun pid li locs addrs => collect_contains_addr mm pid addrs li locs addr⟩

/-- A non-PIE symbolizer over a two-entry table. -/
def demoSym : Symbolizer := ⟨[⟨"main", 16⟩, ⟨"fib", 32⟩], 0, 0, false⟩

/-- A PIE symbolizer: segment offset 4096 mapped at 4198400. -/
def pieSym : Symbolizer := ⟨[⟨"main", 4096⟩, ⟨"fib", 4112⟩], 4096, 4198400, true⟩

/-- C6: for every address exactly equal to some symbol's recorded value in
the sorted symbol table, resolution of that (possibly translated) address
returns the name of a symbol recorded at exactly that value.  (With
duplicate values the search is deterministic and returns the first such
entry; the witness symbol is existentially quantified to cover ties.) -/
theorem claim_C6 (s : Symbolizer) (a : ℕ)
    (h0 : a ≠ 0) (hp : ¬(s.isPIE ∧ a < s.memoryStart))
    (hs : List.Pairwise (fun x y => x.value ≤ y.value) s.symbols)
    (hmem : ∃ sym ∈ s.symbols, sym.value = translate s a) :
    ∃ sym ∈ s.symbols, sym.value = translate s a ∧ Addr2FuncName s a = sym.name := by
  obtain ⟨sym, hsymmem, hg, hv⟩ := findIdx_exact s.symbols (translate s a) hs hmem
  refine ⟨sym, hsymmem, hv, ?_⟩
  simp only [Addr2FuncName, if_neg h0, if_neg hp, lookupName, hg]
  rw [if_pos hv]

theorem claim_C6_witness :
    ∃ sym ∈ demoSym.symbols,
      sym.value = translate demoSym 32 ∧ Addr2FuncName demoSym 32 = sym.name :=
  claim_C6 demoSym 32 (by decide) (by decide) (by decide)
    ⟨⟨"fib", 32⟩, by decide, by decide⟩

/-- C7: for an address strictly between two adjacent entries S (at index i)
and T (at index i+1) of the sorted table, resolution returns S's name
provided S's value is nonzero, and the sentinel when S's value is zero; and
when every entry's value is below the (translated) address the search runs
past the table end and resolution returns the sentinel. -/
theorem claim_C7 (s : Symbolizer) (a i : ℕ) (S T : Symbol)
    (hs : List.Pairwise (fun x y => x.value ≤ y.value) s.symbols)
    (h0 : a ≠ 0) (hp : ¬(s.isPIE ∧ a < s.memoryStart)) :
    (s.symbols[i]? = some S → s.symbols[i + 1]? = some T →
      S.value < translate s a → translate s a < T.value →
      (0 < S.value → Addr2FuncName s a = S.name) ∧
      (S.value = 0 → Addr2FuncName s a = notfound)) ∧
    ((∀ sym ∈ s.symbols, sym.value < translate s a) → Addr2FuncName s a = notfound) := by
  constructor
  · intro hSi hTi hlow hhigh
    have hlk := lookupName_between s.symbols (translate s a) i S T hs hSi hTi hlow hhigh
    simp only [Addr2FuncName, if_neg h0, if_neg hp]
    constructor
    · intro hpos
      rw [hlk, if_pos hpos]
    · intro hzero
      rw [hlk, if_neg (by omega)]
  · intro hall
    simp only [Addr2FuncName, if_neg h0, if_neg hp]
    exact lookupName_past_end s.symbols _ hall

theorem claim_C7_witness :
    Addr2FuncName demoSym 20 = "main" :=
  (((claim_C7 demoSym 20 0 ⟨"main", 16⟩ ⟨"fib", 32⟩
    (by decide) (by decide) (by decide)).1
    (by decide) (by decide) (by decide) (by decide)).1 (by decide))

/-- C8: on a PIE binary every address below `memoryStart` resolves to the
sentinel; for an address at or above `memoryStart` (nonzero, with the
translation not overflowing u64) the address searched against the symbol
table is `segmentOffset + (a - memoryStart)` - the segment offset is the
`fileOffset` the symbolizer was constructed with; and address 0 resolves to
the sentinel regardless of PIE-ness or table contents. -/
theorem claim_C8 (s : Symbolizer) (a : ℕ) :
    (s.isPIE = true → a < s.memoryStart → Addr2FuncName s a = notfound) ∧
    (a ≠ 0 → s.isPIE = true → s.memoryStart ≤ a →
      s.segmentOffset + (a - s.memoryStart) < U64MOD →
      Addr2FuncName s a = lookupName s.symbols (s.segmentOffset + (a - s.memoryStart))) ∧
    Addr2FuncName s 0 = notfound := by
  refine ⟨?_, ?_, by simp [Addr2FuncName]⟩
  · intro hpie hlt
    by_cases h0 : a = 0
    · simp [Addr2FuncName, h0]
    · simp only [Addr2FuncName, if_neg h0]
      rw [if_pos ⟨hpie, hlt⟩]
  · intro h0 hpie hge hov
    have hnp : ¬(s.isPIE ∧ a < s.memoryStart) := by
      intro hcon
      omega
    simp only [Addr2FuncName, if_neg h0, if_neg hnp]
    simp only [translate, hpie, if_true]
    rw [Nat.mod_eq_of_lt hov]

theorem claim_C8_witness :
    Addr2FuncName pieSym 123 = notfound ∧
    Addr2FuncName pieSym 4198416 =
      lookupName pieSym.symbols (pieSym.segmentOffset + (4198416 - pieSym.memoryStart)) ∧
    Addr2FuncName pieSym 0 = notfound :=
  ⟨(claim_C8 pieSym 123).1 rfl (by decide),
   (claim_C8 pieSym 4198416).2.1 (by decide) rfl (by decide) (by decide),
   (claim_C8 pieSym 0).2.2⟩

/-- Program headers with a non-loadable header (type `PT_NOTE = 4`) at file
offset 4096 listed before a loadable (`PT_LOAD`) header at the same offset. -/
def notePieProgs : List ProgHeader := [⟨4, 4096, 0⟩, ⟨1, 4096, 4096⟩]

/-- C9 (counterexample): the claim says construction fails with "segment not
found" exactly when no loadable segment sits at `fileOffset`.  But the scan
picks the **first** header whose offset matches, of any type, and only then
checks it is loadable: on `notePieProgs` a loadable segment at offset 4096
exists, yet construction fails because the first offset match is a
`PT_NOTE` header. -/
theorem claim_C9_counterexample :
    (∃ p ∈ notePieProgs, p.type = PT_LOAD ∧ p.off = 4096) ∧
    newSymbolizer [] notePieProgs 4096 0 = Except.error segNotFound :=
  ⟨⟨⟨1, 4096, 4096⟩, by decide, rfl, rfl⟩, rfl⟩

/-- C9 (amended): construction fails with the "segment not found" error
exactly when no program header has file offset `fileOffset`, or the first
header with that offset is not `PT_LOAD`; when the first header at that
offset is loadable, construction succeeds using it - the symbolizer's
segment offset is that header's offset and `isPIE` holds iff the header's
virtual address equals its file offset. -/
theorem claim_C9 (symbols : List Symbol) (progs : List ProgHeader)
    (fo ms i : ℕ) (P : ProgHeader) :
    (progs[i]? = some P → P.off = fo →
      (∀ (j : ℕ) (Q : ProgHeader), j < i → progs[j]? = some Q → Q.off ≠ fo) →
      ((P.type = PT_LOAD →
        newSymbolizer symbols progs fo ms =
          Except.ok ⟨sortSymbols symbols, P.off, ms, decide (P.vaddr = P.off)⟩) ∧
       (P.type ≠ PT_LOAD →
        newSymbolizer symbols progs fo ms = Except.error segNotFound))) ∧
    ((∀ p ∈ progs, p.off ≠ fo) →
      newSymbolizer symbols progs fo ms = Except.error segNotFound) := by
  constructor
  · intro hP hoff hprev
    have hseg : findSegment progs fo = P := findSegment_of_first progs fo i P hP hoff hprev
    constructor
    · intro hload
      simp only [newSymbolizer, hseg, if_pos hload]
    · intro hnl
      simp only [newSymbolizer, hseg, if_neg hnl]
  · intro hnone
    have hseg := findSegment_of_none progs fo hnone
    have hz : (⟨0, 0, 0⟩ : ProgHeader).type ≠ PT_LOAD := by decide
    simp only [newSymbolizer, hseg, if_neg hz]

theorem claim_C9_witness :
    newSymbolizer [] notePieProgs 4096 0 = Except.error segNotFound ∧
    newSymbolizer [] [⟨1, 4096, 4096⟩] 4096 77 =
      Except.ok ⟨[], 4096, 77, true⟩ := by
  constructor
  · exact ((claim_C9 [] notePieProgs 4096 0 0 ⟨4, 4096, 0⟩).1 rfl rfl
      (fun j Q hj => by omega)).2 (by decide)
  · have h := ((claim_C9 [] [⟨1, 4096, 4096⟩] 4096 77 0 ⟨1, 4096, 4096⟩).1 rfl rfl
      (fun j Q hj => by omega)).1 rfl
    simpa [sortSymbols] using h

theorem claim_C10_witness :
    (∃ mi, ([demoMapping] : List Mapping)[0]? = some mi ∧
      (mi.start ≤ 8192 ∧ 8192 ≤ mi.limit) ∧
      ∀ j mj, j < 0 → ([demoMapping] : List Mapping)[j]? = some mj →
        ¬(mj.start ≤ 8192 ∧ 8192 ≤ mj.limit)) ∧
    ∃ l ∈ (collectSampleLocations [demoMapping] 5 [] [] [9000]).2.2,
      l.address = 9000 ∧ l.mapping = none :=
  ⟨(claim_C10 [demoMapping] 8192).1 0 (by decide),
   (claim_C10 [demoMapping] 9000).2.2 5 [] [] [9000] (by decide) (by decide)
     (by decide) (by decide)⟩

end Parca
